import Mathlib

/-!
Verification development for the frame-streaming pipeline of the repository
(`python_demo/client.py` and `python_demo/record.py`).

The Python source is shallowly embedded:

* filenames are `String`s (character lists) and the regular expression
  `^\d+(?:\.\d+)?\.png$` is embedded as an executable matcher;
* `float(stem)` applied to a decimal literal is embedded by its exact value:
  executably as a pair numerator / power-of-ten denominator (`DecKey`),
  and on the specification side as the corresponding rational number;
* the in-place stable sort `paths.sort(key=...)` is embedded as
  `List.insertionSort`, which is a stable sort, so its output coincides with
  the output of any stable sort by the same key;
* the producer/queue/sender coroutines are embedded as pure functions over
  the complete sequence of queue items ever enqueued: a `get` past the end
  of that sequence corresponds to blocking forever;
* wall-clock / monotonic-clock instants and durations are `ℚ`.
-/

namespace PyDemo


/-! ## Characters and digit strings -/

/-- Decidable test for an ASCII decimal digit character. -/
def isDig (c : Char) : Bool := decide ('0' ≤ c) && decide (c ≤ '9')

/-- Numeric value of a digit character. -/
def digVal (c : Char) : ℕ := c.toNat - '0'.toNat

/-- Split a character list at every occurrence of the dot character,
mirroring the group structure Python regexes and `str.split('.')` see.
The result is always nonempty. -/
def splitOnDot : List Char → List (List Char)
  | [] => [[]]
  | c :: cs =>
    let r := splitOnDot cs
    if c = '.' then [] :: r
    else
      match r with
      | g :: gs => (c :: g) :: gs
      | [] => [[c]]

/-- Remove the first occurrence of a dot, mirroring Python's
 `s.replace('.', '', 1)`. -/
def removeFirstDot : List Char → List Char
  | [] => []
  | c :: cs => if c = '.' then cs else c :: removeFirstDot cs

/-- Python's `str.isdigit`: nonempty and all characters are digits. -/
def pyIsdigit (cs : List Char) : Bool := !cs.isEmpty && cs.all isDig

/-- Value of a digit-character list read in base 10
 (the usual left fold, so leading zeros are harmless). -/
def natOfDigits (cs : List Char) : ℕ := cs.foldl (fun a c => a * 10 + digVal c) 0

/-! ## Exact decimal values

`float(stem)` values are finite decimals.  `DecKey` represents the exact
decimal `num / 10 ^ exp`; comparisons are by cross multiplication over `ℕ`,
which the kernel evaluates, and `DecKey.toQ` is the value in `ℚ` used in
specification statements. -/

structure DecKey where
  num : ℕ
  exp : ℕ

deriving DecidableEq, Repr

/-- Rational value of an exact decimal. -/
def DecKey.toQ (k : DecKey) : ℚ := (k.num : ℚ) / (10 : ℚ) ^ k.exp

/-- Executable order on exact decimals. -/
def DecKey.leb (a b : DecKey) : Bool :=
  decide (a.num * 10 ^ b.exp ≤ b.num * 10 ^ a.exp)

/-- Executable equality of the values of two exact decimals. -/
def DecKey.eqb (a b : DecKey) : Bool :=
  decide (a.num * 10 ^ b.exp = b.num * 10 ^ a.exp)

/-- Executable strict order on exact decimals. -/
def DecKey.ltb (a b : DecKey) : Bool :=
  decide (a.num * 10 ^ b.exp < b.num * 10 ^ a.exp)

/-- Exact value of Python's `float(s)` on the decimal literals that can reach
 the sort key of `list_timestamped_pngs`: either `"<digits>"` or
 `"<digits>.<digits>"` (with possibly empty digit groups around the dot, as
 Python's `float` accepts `"1."` and `".5"`). Other shapes are unreachable
 under the guard in the source and are mapped to `0`. -/
def pyFloatKey (cs : List Char) : DecKey :=
  match splitOnDot cs with
  | [a] => ⟨natOfDigits a, 0⟩
  | [a, b] => ⟨natOfDigits a * 10 ^ b.length + natOfDigits b, b.length⟩
  | _ => ⟨0, 0⟩

/-- Specification-side value of `float(s)` for the same literals. -/
def pyFloatQ (cs : List Char) : ℚ :=
  match splitOnDot cs with
  | [a] => (natOfDigits a : ℚ)
  | [a, b] => (natOfDigits a : ℚ) + (natOfDigits b : ℚ) / (10 : ℚ) ^ b.length
  | _ => 0

/-! ## The Frame Source Enumerator (`client.list_timestamped_pngs`) -/

/-- The character list of the literal suffix `".png"`. -/
def pngSuffix : List Char := ['.', 'p', 'n', 'g']

/-- Matcher for the stem part of the regex `^\d+(?:\.\d+)?$`:
 one digit group, or two digit groups separated by one dot. -/
def stemPat (cs : List Char) : Bool :=
  match splitOnDot cs with
  | [a] => pyIsdigit a
  | [a, b] => pyIsdigit a && pyIsdigit b
  | _ => false

/-- The stem of a filename ending in `".png"`: the name with the last four
 characters removed (this agrees with Python's `Path.stem` on every name the
 enumerator's filter lets through). -/
def stemChars (cs : List Char) : List Char := cs.take (cs.length - 4)

/-- Embedding of the anchored regex `^\d+(?:\.\d+)?\.png$` from the source
 (`_TS_PNG`): the name ends in `".png"` and the part before that suffix is
 one or two dot-separated digit groups. -/
def tsPngMatch (cs : List Char) : Bool :=
  decide (4 ≤ cs.length) && decide (cs.drop (cs.length - 4) = pngSuffix)
    && stemPat (stemChars cs)

/-- The sort key
 `float(p.stem) if p.stem.replace('.', '', 1).isdigit() else 0.0`
 carried at the exact decimal value of the literal; `sortKeyF` below is the
 same key rounded to IEEE-754 binary64 precision as the program's `float`
 actually computes it. -/
def sortKey (stem : List Char) : DecKey :=
  if pyIsdigit (removeFirstDot stem) then pyFloatKey stem else ⟨0, 0⟩

/-- Exact-decimal sort key of a whole filename (see `fileKeyF` for the
 binary64 key the program computes). -/
def fileKey (s : String) : DecKey := sortKey (stemChars s.data)

/-- Specification-side (rational) exact-decimal sort key of a whole
 filename. -/
def fileKeyQ (s : String) : ℚ := (fileKey s).toQ

/-- The filter and stable sort of `client.list_timestamped_pngs` over a raw
 directory listing, with the sort key carried at exact decimal precision.
 This idealization coincides with the program whenever the binary64 keys of
 the matching names are tie-free — in particular on recorder-written names,
 which are shortest-repr renderings of doubles, so distinct names denote
 distinct doubles and exact-decimal order equals double order.  The fully
 precision-faithful embedding of the source function (key rounded to an
 IEEE-754 double exactly as `float` does) is `list_timestamped_pngs_f64`
 below.  Python's `list.sort` is a stable sort, hence both are embedded by
 the stable `List.insertionSort`. -/
def list_timestamped_pngs (listing : List String) : List String :=
  (listing.filter (fun s => tsPngMatch s.data)).insertionSort
    (fun a b => (fileKey a).leb (fileKey b) = true)

/-! ## IEEE-754 binary64 rounding of the sort key

CPython parses a float literal with a correctly-rounded `strtod`: the exact
decimal value of the literal is rounded to the nearest binary64 double,
ties to even.  `roundF64` implements exactly that on the exact decimal
`num / 10 ^ exp`, so `fileKeyF` is the program's sort key at full
precision: distinct stems that round to the same double (for example
`10000000000000001` and `10000000000000000`, or `1747154380.5511632` and
`1747154380.5511633`) collide, as they do in the program. -/

/-- Round `N / D` (for `D > 0`) to the nearest integer, ties to even. -/
def roundHalfEven (N D : ℕ) : ℕ :=
  let q := N / D
  let r := N % D
  if 2 * r < D then q
  else if D < 2 * r then q + 1
  else if q % 2 = 0 then q else q + 1

/-- A nonnegative IEEE-754 binary64 magnitude: infinity, or the dyadic
 value `m * 2 ^ e`. -/
inductive F64 where
  | inf
  | fin (m : ℕ) (e : ℤ)
deriving DecidableEq, Repr

/-- Bring the fraction `N / D` into the binade `[2^52, 2^53)` by doubling
 `D` (value too large) or doubling `N` (value too small), tracking the
 binary exponent `e` so that the represented value `(N / D) * 2 ^ (e - 52)`
 is preserved.  The fuel bounds the number of binary shifts; the caller
 passes more fuel than the bit lengths involved, so the loop always reaches
 the binade before the fuel runs out. -/
def normalizeF64 : ℕ → ℕ → ℕ → ℤ → ℕ × ℕ × ℤ
  | 0, N, D, e => (N, D, e)
  | fuel + 1, N, D, e =>
    if 2 ^ 53 * D ≤ N then normalizeF64 fuel N (2 * D) (e + 1)
    else if N < 2 ^ 52 * D then normalizeF64 fuel (2 * N) D (e - 1)
    else (N, D, e)

/-- Correctly-rounded (round-to-nearest, ties-to-even) IEEE-754 binary64
 value of the exact decimal `k.num / 10 ^ k.exp`: normalize into the binade
 `[2^52, 2^53)` and round the 52-bit mantissa; values below the normal
 range round at the subnormal scale `2 ^ (-1074)`, and values that round to
 `2 ^ 1024` or beyond become infinity.  This is the value CPython's
 `float` produces for the decimal literal. -/
def roundF64 (k : DecKey) : F64 :=
  if k.num = 0 then F64.fin 0 0
  else
    let p := normalizeF64 (k.num + 10 ^ k.exp + 120) k.num (10 ^ k.exp) 52
    let N := p.1
    let D := p.2.1
    let e := p.2.2
    if 1023 < e then F64.inf
    else if e < -1022 then
      F64.fin (roundHalfEven N (D * 2 ^ (-(e + 1022)).toNat)) (-1074)
    else
      let m := roundHalfEven N D
      if e = 1023 ∧ m = 2 ^ 53 then F64.inf
      else F64.fin m (e - 52)

/-- Executable order on binary64 magnitudes, by cross-shifting the dyadic
 values over `ℕ`; infinity is the top element. -/
def F64.leb : F64 → F64 → Bool
  | _, F64.inf => true
  | F64.inf, F64.fin _ _ => false
  | F64.fin m1 e1, F64.fin m2 e2 =>
    decide (m1 * 2 ^ (e1 - e2).toNat ≤ m2 * 2 ^ (e2 - e1).toNat)

/-- Executable equality of the values of two binary64 magnitudes. -/
def F64.eqb : F64 → F64 → Bool
  | F64.inf, F64.inf => true
  | F64.inf, F64.fin _ _ => false
  | F64.fin _ _, F64.inf => false
  | F64.fin m1 e1, F64.fin m2 e2 =>
    decide (m1 * 2 ^ (e1 - e2).toNat = m2 * 2 ^ (e2 - e1).toNat)

/-- Specification-side value of a binary64 magnitude: a rational, or the
 top element for infinity. -/
def F64.toQT : F64 → WithTop ℚ
  | F64.inf => ⊤
  | F64.fin m e => (((m : ℚ) * (2 : ℚ) ^ e : ℚ) : WithTop ℚ)

/-- Embedding of Python's `float(s)` on a decimal literal at full IEEE-754
 binary64 precision: the exact decimal value, correctly rounded to a
 double. -/
def pyFloat64 (cs : List Char) : F64 := roundF64 (pyFloatKey cs)

/-- The sort key
 `float(p.stem) if p.stem.replace('.', '', 1).isdigit() else 0.0`
 at the program's precision: an IEEE-754 double. -/
def sortKeyF (stem : List Char) : F64 :=
  if pyIsdigit (removeFirstDot stem) then pyFloat64 stem else F64.fin 0 0

/-- The program's binary64 sort key of a whole filename. -/
def fileKeyF (s : String) : F64 := sortKeyF (stemChars s.data)

/-- Embedding of `client.list_timestamped_pngs` at full precision, as a
 function of the raw directory listing (the order in which the filesystem
 returns the names): keep the names matching the timestamp regex, then sort
 them stably by the IEEE-754 double value of the stem, exactly the key the
 program's `float(p.stem)` computes.  Python's `list.sort` is a stable
 sort, hence it is embedded by the stable `List.insertionSort`. -/
def list_timestamped_pngs_f64 (listing : List String) : List String :=
  (listing.filter (fun s => tsPngMatch s.data)).insertionSort
    (fun a b => (fileKeyF a).leb (fileKeyF b) = true)

/-! ## The streaming pipeline (`client.encoder_producer` and `client.main`)

The producer coroutine and the sending coroutine communicate through one
queue.  The embedding works with the complete sequence of items the producer
ever enqueues (`producerTrace`); the consumer functions walk down that
sequence, and a `get` past its end corresponds to blocking forever, which is
reported through an explicit `blocked` / `completed` flag. -/

deriving instance DecidableEq for Except

/-- A source frame as the producer sees it: the filename, its stem (used as
 the timestamp string), and the outcome of encoding it (`b64_raw` /
 `b64_jpeg` either return a payload or raise). -/
structure SrcFrame where
  name : String
  ts : String
  enc : Except String String

deriving DecidableEq, Repr

/-- An encoded frame as enqueued: `(p.name, ts_str, b64)`. -/
structure EncFrame where
  name : String
  ts : String
  b64 : String

deriving DecidableEq, Repr

/-- One queue item: a real frame or the `None` sentinel. -/
inductive QItem where
  | frame (f : EncFrame)
  | sentinel

deriving DecidableEq, Repr

/-- Whether the encode of a source frame succeeds. -/
def encOk (f : SrcFrame) : Bool :=
  match f.enc with
  | .ok _ => true
  | .error _ => false

/-- The encoded frame of a source frame (payload is only meaningful when
 `encOk` holds). -/
def asEnc (f : SrcFrame) : EncFrame :=
  ⟨f.name, f.ts, match f.enc with | .ok b => b | .error _ => ""⟩

/-- Embedding of `client.encoder_producer`: encode the paths in order and
 enqueue each result, then enqueue the sentinel.  An encode failure raises
 out of the loop, so the producer task dies at the first failing frame and
 the sentinel line is never reached: the trace simply stops. -/
def producerTrace : List SrcFrame → List QItem
  | [] => [QItem.sentinel]
  | f :: fs =>
    match f.enc with
    | .ok b => QItem.frame ⟨f.name, f.ts, b⟩ :: producerTrace fs
    | .error _ => []

/-- Embedding of `prefill_target = max(1, int(FPS * 0.5))`.  Written with
 integer division over the numerator/denominator of the rational rate so
 that it evaluates by kernel reduction; `prefillTarget_eq` relates it to the
 specification formula `max 1 ⌊fps * (1/2)⌋`. -/
def prefillTarget (fps : ℚ) : ℕ := max 1 ((fps.num / (2 * fps.den : ℤ)).toNat)

/-- Result of the prefill loop (`while len(stash) < prefill_target`): the
 stash, the rest of the queue trace, whether the sentinel was dequeued
 during the prefill, and whether the loop blocked forever on an exhausted
 queue.  The first argument is the number of free stash slots left. -/
def prefillAux : ℕ → List QItem → List EncFrame × List QItem × Bool × Bool
  | 0, q => ([], q, false, false)
  | _ + 1, [] => ([], [], false, true)
  | _ + 1, QItem.sentinel :: rest => ([], rest, true, false)
  | n + 1, QItem.frame f :: rest =>
    let r := prefillAux n rest
    (f :: r.1, r.2.1, r.2.2.1, r.2.2.2)

/-- Result of the drain loop (`while True: it = await q.get() ...`): the
 frames dequeued and sent before the sentinel, and whether the sentinel was
 reached (if not, the loop blocks forever on `q.get()`). -/
def drainAux : List QItem → List EncFrame × Bool
  | [] => ([], false)
  | QItem.sentinel :: _ => ([], true)
  | QItem.frame f :: rest =>
    let r := drainAux rest
    (f :: r.1, r.2)

/-- One outbound message as built by `build_payload`.  The fresh
 `uuid.uuid4()` generated for each message is modelled by the message's
 ordinal `id`: distinct messages of one session carry distinct ids. -/
structure Msg where
  id : ℕ
  state : String
  advanced : Bool
  timestamp : String
  frame_data : String

deriving DecidableEq, Repr

/-- The `"stream"` message for an encoded frame. -/
def streamMsg (i : ℕ) (f : EncFrame) : Msg := ⟨i, "stream", true, f.ts, f.b64⟩

/-- The `"end"` message for an encoded frame. -/
def endMsg (i : ℕ) (f : EncFrame) : Msg := ⟨i, "end", true, f.ts, f.b64⟩

/-- Number a list of frames as consecutive `"stream"` messages starting at
 identifier `i`. -/
def numberFrom (i : ℕ) : List EncFrame → List Msg
  | [] => []
  | f :: fs => streamMsg i f :: numberFrom (i + 1) fs

/-- Outcome of the sending part of `client.main`: the messages transmitted,
 and whether the sender ran to completion (`False` means it blocked forever
 on `q.get()`). -/
structure SenderOut where
  msgs : List Msg
  completed : Bool

deriving DecidableEq, Repr

/-- Embedding of the sending part of `client.main`: prefill the stash, send
 the stash, drain the queue sending each frame and remembering `last_item`,
 then send the `"end"` duplicate of `last_item` when it is not `None`.
 `last_item` is assigned only in the drain loop, never in the prefill send
 loop, exactly as in the source. -/
def senderRun (target : ℕ) (q : List QItem) : SenderOut :=
  let p := prefillAux target q
  let stash := p.1
  if p.2.2.2 then ⟨[], false⟩
  else
    let d := drainAux p.2.1
    let frames := stash ++ d.1
    let streams := numberFrom 0 frames
    if d.2 then
      match d.1.getLast? with
      | some lf => ⟨streams ++ [endMsg frames.length lf], true⟩
      | none => ⟨streams, true⟩
    else ⟨streams, false⟩

/-- Externally visible events of one run of `client.main`, in order. -/
inductive Ev where
  | readFirstImage (name : String)
  | connect
  | sent (m : Msg)

deriving DecidableEq, Repr

/-- Final status of one run of `client.main`. -/
inductive MainResult where
  | configError
  | emptyOk
  | finished
  | hung

deriving DecidableEq, Repr

/-- Embedding of `client.main` over an already-enumerated frame list: the
 `FRAME_FORMAT` check runs first and raises before anything else happens; an
 empty frame list returns before connecting; otherwise the first image is
 read for its size, the connection is opened, and the sender runs over the
 producer's queue trace. -/
def mainModel (format : String) (paths : List SrcFrame) (fps : ℚ) :
    List Ev × MainResult :=
  if ¬(format = "raw" ∨ format = "jpeg") then ([], MainResult.configError)
  else
    match paths with
    | [] => ([], MainResult.emptyOk)
    | p0 :: _ =>
      let out := senderRun (prefillTarget fps) (producerTrace paths)
      (Ev.readFirstImage p0.name :: Ev.connect :: out.msgs.map Ev.sent,
        if out.completed then MainResult.finished else MainResult.hung)

/-- Number of messages in a run with a given state. -/
def countState (s : String) (ms : List Msg) : ℕ :=
  (ms.filter (fun m => m.state = s)).length

/-- Messages sent during a run of `mainModel`. -/
def sentMsgs (r : List Ev × MainResult) : List Msg :=
  r.1.filterMap (fun e => match e with | Ev.sent m => some m | _ => none)

/-- Number of sentinels in a queue trace. -/
def sentinelCount (q : List QItem) : ℕ :=
  (q.filter (fun i => i = QItem.sentinel)).length

/-- Whether some real frame occurs after a sentinel in a queue trace. -/
def frameAfterSentinel : List QItem → Bool
  | [] => false
  | QItem.sentinel :: rest =>
    rest.any (fun i => match i with | QItem.frame _ => true | _ => false)
      || frameAfterSentinel rest
  | QItem.frame _ :: rest => frameAfterSentinel rest

/-! ## The send-rate pacing of `client.main`

After sending the k-th frame the code executes
`next_time = start + sent / FPS; delay = next_time - perf_counter();
if delay > 0: await asyncio.sleep(delay)`.  The monotonic clock is a `ℚ`;
`d k` is the time spent dequeuing and transmitting the k-th frame. -/

/-- The scheduled completion time of the k-th frame:
 `next_time = start + sent / FPS`. -/
def schedTime (start fps : ℚ) (k : ℕ) : ℚ := start + (k : ℚ) / fps

/-- The clock after the pacing step that follows the k-th send, entered at
 clock value `now`: sleep for `delay = next_time - now` when that is
 positive, otherwise do not sleep. -/
def paceStep (start fps : ℚ) (k : ℕ) (now : ℚ) : ℚ :=
  let delay := schedTime start fps k - now
  if 0 < delay then now + delay else now

/-- The clock of the sender after completing the pacing step of the k-th
 frame, where `start` is the single `perf_counter()` reference taken once
 after the prefill and before the first send, and `d (k+1)` is the
 processing time of frame `k+1`. -/
def senderClock (start fps : ℚ) (d : ℕ → ℚ) : ℕ → ℚ
  | 0 => start
  | k + 1 => paceStep start fps (k + 1) (senderClock start fps d k + d (k + 1))

/-! ## The termination handshake of `client.main`

After the end message, `await asyncio.wait_for(listener_task, timeout=20.0)`;
on `TimeoutError` the listener is cancelled and its cancellation awaited
before the connection context closes.  `lf = none` models a listener that
never finishes on its own (a remote endpoint that never responds and never
closes); `lf = some t` a listener finishing `t` time units after the end
message. -/

/-- Events of the post-end phase, in order. -/
inductive HsEv where
  | listenerDone
  | timedOut
  | cancelListener
  | cancelObserved
  | connClosed

deriving DecidableEq, Repr

/-- Semantics of `asyncio.wait_for(listener_task, timeout)`: the listener's
 own finish time when it beats the deadline, otherwise a timeout. -/
def waitForListener (timeout : ℚ) : Option ℚ → Option ℚ
  | some t => if t ≤ timeout then some t else none
  | none => none

/-- Embedding of lines 210-216 of `client.main`: duration of the post-end
 phase (measured from the end message) and its event sequence.
 `cancelCost` is the time to observe the listener's cancellation and
 `closeCost` the time to close the connection. -/
def postEndPhase (lf : Option ℚ) (cancelCost closeCost : ℚ) : ℚ × List HsEv :=
  match waitForListener 20 lf with
  | some t => (t + closeCost, [HsEv.listenerDone, HsEv.connClosed])
  | none => (20 + cancelCost + closeCost,
      [HsEv.timedOut, HsEv.cancelListener, HsEv.cancelObserved, HsEv.connClosed])

/-! ## The recorder (`record.main`)

The capture loop `for i in range(total_frames)` computes
`next_time = start + i / FPS`, reads a frame, and on a failed read sleeps
one millisecond and continues without writing; on a successful read it
writes the frame under the wall-clock timestamp and, unless the preview key
asked to stop, paces to `next_time`. -/

/-- One camera read: a failure, or a frame captured at wall-clock time `ts`
 together with whether the preview loop sees a quit key afterwards. -/
inductive CamRead where
  | fail
  | frame (ts : ℚ) (quit : Bool)

deriving DecidableEq, Repr

/-- The log of one loop iteration of `record.main`: the loop index, the
 scheduled time `next_time = start + i / FPS` computed for it, and the
 timestamp written, if any. -/
structure IterLog where
  idx : ℕ
  sched : ℚ
  wrote : Option ℚ

deriving DecidableEq, Repr

/-- Embedding of the capture loop of `record.main`, iterating over the
 outcomes of the successive camera reads, starting at loop index `i`.
 A failed read writes nothing and continues; a successful read writes the
 wall-clock timestamp; a quit key stops the loop after the write. -/
def recordIters (start fps : ℚ) : ℕ → List CamRead → List IterLog
  | _, [] => []
  | i, CamRead.fail :: rest =>
    ⟨i, start + (i : ℚ) / fps, none⟩ :: recordIters start fps (i + 1) rest
  | i, CamRead.frame ts q :: rest =>
    if q then [⟨i, start + (i : ℚ) / fps, some ts⟩]
    else ⟨i, start + (i : ℚ) / fps, some ts⟩ :: recordIters start fps (i + 1) rest

/-- The files written during a run of the capture loop. -/
def recordWrites (logs : List IterLog) : List ℚ := logs.filterMap (fun l => l.wrote)

/-! ## Recorder filenames (`record.main` line 49 and `client._TS_PNG`)

`cv2.imwrite(str(OUT_DIR / f"{ts}.png"), frame)` names the file by the
decimal rendering of the wall-clock capture time.  For the range of values
`time.time()` takes, Python renders a float as `<digits>.<digits>` with at
least one digit on each side of the dot; a recorded name is embedded by its
digit lists. -/

/-- The character of a decimal digit. -/
def digitChar (d : ℕ) : Char := Char.ofNat (48 + d)

/-- A recorded filename: integer-part digits and fractional digits of the
 capture timestamp, as Python renders the float. -/
structure RecName where
  ip : List ℕ
  frac : List ℕ

deriving DecidableEq, Repr

/-- Well-formedness of a digit list: every entry is a digit. -/
def wfDigits (ds : List ℕ) : Bool := ds.all (fun d => d < 10)

/-- Value of a digit list read in base 10. -/
def digitsVal (ds : List ℕ) : ℕ := ds.foldl (fun a d => a * 10 + d) 0

/-- The filename the recorder writes: `f"{ts}.png"`. -/
def RecName.render (t : RecName) : String :=
  ⟨t.ip.map digitChar ++ '.' :: t.frac.map digitChar ++ pngSuffix⟩

/-- The capture timestamp the rendered name denotes. -/
def RecName.value (t : RecName) : ℚ :=
  (digitsVal t.ip : ℚ) + (digitsVal t.frac : ℚ) / (10 : ℚ) ^ t.frac.length

/-- The executable key of a recorded name. -/
def RecName.key (t : RecName) : DecKey :=
  ⟨digitsVal t.ip * 10 ^ t.frac.length + digitsVal t.frac, t.frac.length⟩

/-! ## Lemmas about the enumerator's sort -/

theorem DecKey.leb_iff (a b : DecKey) : a.leb b = true ↔ a.toQ ≤ b.toQ := by
  have h10 : (0:ℚ) < (10:ℚ) ^ a.exp := by positivity
  have h10' : (0:ℚ) < (10:ℚ) ^ b.exp := by positivity
  simp only [DecKey.leb, decide_eq_true_eq, DecKey.toQ]
  rw [div_le_div_iff₀ h10 h10']
  constructor
  · intro h
    have := (Nat.cast_le (α := ℚ)).2 h
    push_cast at this ⊢
    linarith
  · intro h
    have : ((a.num * 10 ^ b.exp : ℕ) : ℚ) ≤ ((b.num * 10 ^ a.exp : ℕ) : ℚ) := by
      push_cast
      linarith
    exact_mod_cast this

theorem DecKey.eqb_iff (a b : DecKey) : a.eqb b = true ↔ a.toQ = b.toQ := by
  have h10 : ((10:ℚ) ^ a.exp) ≠ 0 := by positivity
  have h10' : ((10:ℚ) ^ b.exp) ≠ 0 := by positivity
  simp only [DecKey.eqb, decide_eq_true_eq, DecKey.toQ]
  rw [div_eq_div_iff h10 h10']
  constructor
  · intro h
    have := congrArg (fun n : ℕ => (n : ℚ)) h
    push_cast at this
    linarith
  · intro h
    have : ((a.num * 10 ^ b.exp : ℕ) : ℚ) = ((b.num * 10 ^ a.exp : ℕ) : ℚ) := by
      push_cast
      linarith
    exact_mod_cast this

theorem DecKey.ltb_iff (a b : DecKey) : a.ltb b = true ↔ a.toQ < b.toQ := by
  have hle := DecKey.leb_iff b a
  simp only [DecKey.leb, decide_eq_true_eq] at hle
  simp only [DecKey.ltb, decide_eq_true_eq]
  have h2 : a.toQ < b.toQ ↔ ¬(b.num * 10 ^ a.exp ≤ a.num * 10 ^ b.exp) := by
    rw [hle]
    exact lt_iff_not_le
  rw [h2]
  omega

theorem pyFloatKey_toQ (cs : List Char) : (pyFloatKey cs).toQ = pyFloatQ cs := by
  unfold pyFloatKey pyFloatQ
  rcases h : splitOnDot cs with _ | ⟨a, _ | ⟨b, _ | _⟩⟩ <;>
    simp [DecKey.toQ]
  have h10 : ((10:ℚ) ^ b.length) ≠ 0 := by positivity
  field_simp

example : list_timestamped_pngs ["2.png", "10.png", "1.png", "readme.txt", "x.png"]
    = ["1.png", "2.png", "10.png"] := by decide

example : list_timestamped_pngs ["1747154380.5511632.png", "9.png"]
    = ["9.png", "1747154380.5511632.png"] := by decide

example : list_timestamped_pngs ["1.50.png", "1.5.png"] = ["1.50.png", "1.5.png"] := by
  decide

example : list_timestamped_pngs ["1.5.png", "1.50.png"] = ["1.5.png", "1.50.png"] := by
  decide

theorem prefillTarget_eq (fps : ℚ) :
    prefillTarget fps = max 1 (⌊fps * (1/2)⌋).toNat := by
  have hden : ((fps.den : ℚ)) ≠ 0 := by
    exact_mod_cast fps.den_nz
  have h1 : fps * (1/2) = ((fps.num : ℚ) / ((2 * fps.den : ℕ) : ℚ)) := by
    conv_lhs => rw [← Rat.num_div_den fps]
    push_cast
    field_simp
    exact Or.inl (by ring)
  rw [prefillTarget, h1, Rat.floor_intCast_div_natCast]
  push_cast
  rfl

example :
    producerTrace [⟨"1.png", "1", Except.ok "AA"⟩, ⟨"2.png", "2", Except.ok "BB"⟩]
      = [QItem.frame ⟨"1.png", "1", "AA"⟩, QItem.frame ⟨"2.png", "2", "BB"⟩,
        QItem.sentinel] := by decide

example :
    (senderRun 1 (producerTrace
      [⟨"1.png", "1", Except.ok "AA"⟩, ⟨"2.png", "2", Except.ok "BB"⟩])).msgs
      = [streamMsg 0 ⟨"1.png", "1", "AA"⟩, streamMsg 1 ⟨"2.png", "2", "BB"⟩,
        endMsg 2 ⟨"2.png", "2", "BB"⟩] := by decide

example :
    senderRun 2 (producerTrace
      [⟨"1.png", "1", Except.ok "AA"⟩, ⟨"2.png", "2", Except.ok "BB"⟩])
      = ⟨[streamMsg 0 ⟨"1.png", "1", "AA"⟩, streamMsg 1 ⟨"2.png", "2", "BB"⟩],
        true⟩ := by decide

example :
    senderRun 3 (producerTrace
      [⟨"1.png", "1", Except.ok "AA"⟩, ⟨"2.png", "2", Except.ok "BB"⟩])
      = ⟨[streamMsg 0 ⟨"1.png", "1", "AA"⟩, streamMsg 1 ⟨"2.png", "2", "BB"⟩],
        false⟩ := by decide

theorem paceStep_eq_max (start fps : ℚ) (k : ℕ) (now : ℚ) :
    paceStep start fps k now = max now (schedTime start fps k) := by
  unfold paceStep
  rcases le_or_lt (schedTime start fps k) now with h | h
  · rw [if_neg (by simp; linarith), max_eq_left h]
  · rw [if_pos (by linarith), max_eq_right (le_of_lt h)]
    ring

example : RecName.render ⟨[1, 7], [5, 0]⟩ = "17.50.png" := by decide

/-! ## Supporting lemmas about the pipeline -/

theorem producerTrace_ok (fs : List SrcFrame) (h : ∀ f ∈ fs, encOk f = true) :
    producerTrace fs
      = fs.map (fun f => QItem.frame (asEnc f)) ++ [QItem.sentinel] := by
  induction fs with
  | nil => rfl
  | cons f fs ih =>
    have hf := h f (by simp)
    match hv : f.enc with
    | Except.ok b =>
      simp only [producerTrace, hv, List.map_cons, List.cons_append, List.cons.injEq]
      exact ⟨by simp [asEnc, hv], ih (fun g hg => h g (by simp [hg]))⟩
    | Except.error e => simp [encOk, hv] at hf

theorem producerTrace_err (good : List SrcFrame) (bad : SrcFrame)
    (rest : List SrcFrame) (hg : ∀ f ∈ good, encOk f = true)
    (hb : encOk bad = false) :
    producerTrace (good ++ bad :: rest)
      = good.map (fun f => QItem.frame (asEnc f)) := by
  induction good with
  | nil =>
    match hv : bad.enc with
    | Except.error e => simp [producerTrace, hv]
    | Except.ok b => simp [encOk, hv] at hb
  | cons f fs ih =>
    have hf := hg f (by simp)
    match hv : f.enc with
    | Except.ok b =>
      simp only [List.cons_append, producerTrace, hv, List.map_cons, List.cons.injEq]
      exact ⟨by simp [asEnc, hv], ih (fun g hgm => hg g (by simp [hgm]))⟩
    | Except.error e => simp [encOk, hv] at hf

theorem prefillAux_take (tail : List QItem) :
    ∀ (fs : List EncFrame) (t : ℕ), t ≤ fs.length →
      prefillAux t (fs.map QItem.frame ++ tail)
        = (fs.take t, (fs.drop t).map QItem.frame ++ tail, false, false) := by
  intro fs
  induction fs with
  | nil =>
    intro t ht
    have ht0 : t = 0 := by simpa using ht
    subst ht0
    simp [prefillAux]
  | cons f fs ih =>
    intro t ht
    cases t with
    | zero => simp [prefillAux]
    | succ n =>
      simp only [List.map_cons, List.cons_append, prefillAux,
        List.take_succ_cons, List.drop_succ_cons, List.append_eq]
      rw [ih n (by simpa using ht)]

theorem prefillAux_sentinel :
    ∀ (fs : List EncFrame) (t : ℕ) (tail : List QItem), fs.length < t →
      prefillAux t (fs.map QItem.frame ++ QItem.sentinel :: tail)
        = (fs, tail, true, false) := by
  intro fs
  induction fs with
  | nil =>
    intro t tail ht
    cases t with
    | zero => omega
    | succ n => simp [prefillAux]
  | cons f fs ih =>
    intro t tail ht
    cases t with
    | zero => omega
    | succ n =>
      simp only [List.map_cons, List.cons_append, prefillAux, List.append_eq]
      rw [ih n tail (by simpa using ht)]

theorem prefillAux_blocked :
    ∀ (fs : List EncFrame) (t : ℕ), fs.length < t →
      prefillAux t (fs.map QItem.frame) = (fs, [], false, true) := by
  intro fs
  induction fs with
  | nil =>
    intro t ht
    cases t with
    | zero => omega
    | succ n => simp [prefillAux]
  | cons f fs ih =>
    intro t ht
    cases t with
    | zero => omega
    | succ n =>
      simp only [List.map_cons, prefillAux, List.append_eq]
      rw [ih n (by simpa using ht)]

theorem drainAux_sentinel (tail : List QItem) :
    ∀ fs : List EncFrame,
      drainAux (fs.map QItem.frame ++ QItem.sentinel :: tail) = (fs, true) := by
  intro fs
  induction fs with
  | nil => simp [drainAux]
  | cons f fs ih =>
    simp only [List.map_cons, List.cons_append, drainAux, List.append_eq]
    rw [ih]

theorem drainAux_noSentinel :
    ∀ fs : List EncFrame, drainAux (fs.map QItem.frame) = (fs, false) := by
  intro fs
  induction fs with
  | nil => simp [drainAux]
  | cons f fs ih =>
    simp only [List.map_cons, drainAux]
    rw [ih]

theorem numberFrom_length (a : List EncFrame) :
    ∀ i, (numberFrom i a).length = a.length := by
  induction a with
  | nil => intro i; rfl
  | cons f fs ih => intro i; simp [numberFrom, ih]

theorem numberFrom_append (a b : List EncFrame) :
    ∀ i, numberFrom i (a ++ b) = numberFrom i a ++ numberFrom (i + a.length) b := by
  induction a with
  | nil => intro i; simp [numberFrom]
  | cons f fs ih =>
    intro i
    simp only [List.cons_append, numberFrom, List.append_eq, List.length_cons]
    rw [ih (i + 1)]
    have harith : i + 1 + fs.length = i + (fs.length + 1) := by omega
    rw [harith]

theorem numberFrom_state (a : List EncFrame) :
    ∀ i, ∀ m ∈ numberFrom i a, m.state = "stream" := by
  induction a with
  | nil => intro i m hm; simp [numberFrom] at hm
  | cons f fs ih =>
    intro i m hm
    rcases (by simpa [numberFrom] using hm : m = streamMsg i f ∨ m ∈ numberFrom (i + 1) fs)
      with h | h
    · rw [h]; rfl
    · exact ih (i + 1) m h

theorem countState_stream_numberFrom (a : List EncFrame) (i : ℕ) :
    countState "stream" (numberFrom i a) = a.length := by
  unfold countState
  rw [List.filter_eq_self.2 (fun m hm => by
    simp [numberFrom_state a i m hm])]
  exact numberFrom_length a i

theorem countState_end_numberFrom (a : List EncFrame) (i : ℕ) :
    countState "end" (numberFrom i a) = 0 := by
  unfold countState
  rw [List.filter_eq_nil_iff.2 (fun m hm => by
    simp [numberFrom_state a i m hm])]
  rfl

theorem numberFrom_take (a : List EncFrame) :
    ∀ i n, (numberFrom i a).take n = numberFrom i (a.take n) := by
  induction a with
  | nil => intro i n; simp [numberFrom]
  | cons f fs ih =>
    intro i n
    cases n with
    | zero => simp [numberFrom]
    | succ m => simp [numberFrom, ih (i + 1) m]

theorem senderRun_ok_le (fsEnc : List EncFrame) (t : ℕ) (ht : t ≤ fsEnc.length) :
    senderRun t (fsEnc.map QItem.frame ++ [QItem.sentinel])
      = match (fsEnc.drop t).getLast? with
        | some lf => ⟨numberFrom 0 fsEnc ++ [endMsg fsEnc.length lf], true⟩
        | none => ⟨numberFrom 0 fsEnc, true⟩ := by
  unfold senderRun
  rw [show fsEnc.map QItem.frame ++ [QItem.sentinel]
      = fsEnc.map QItem.frame ++ ([] : List EncFrame).map QItem.frame
        ++ QItem.sentinel :: [] by simp]
  rw [show fsEnc.map QItem.frame ++ ([] : List EncFrame).map QItem.frame
      = fsEnc.map QItem.frame by simp]
  rw [prefillAux_take (QItem.sentinel :: []) fsEnc t ht]
  simp only
  rw [drainAux_sentinel [] (fsEnc.drop t)]
  simp only [Bool.false_eq_true, if_false, if_true]
  rw [List.take_append_drop]

theorem senderRun_ok_gt (fsEnc : List EncFrame) (t : ℕ) (ht : fsEnc.length < t) :
    senderRun t (fsEnc.map QItem.frame ++ [QItem.sentinel])
      = ⟨numberFrom 0 fsEnc, false⟩ := by
  unfold senderRun
  rw [show fsEnc.map QItem.frame ++ [QItem.sentinel]
      = fsEnc.map QItem.frame ++ QItem.sentinel :: [] by simp]
  rw [prefillAux_sentinel fsEnc t [] ht]
  simp [drainAux]

theorem senderRun_noSentinel_le (fsEnc : List EncFrame) (t : ℕ)
    (ht : t ≤ fsEnc.length) :
    senderRun t (fsEnc.map QItem.frame) = ⟨numberFrom 0 fsEnc, false⟩ := by
  unfold senderRun
  have h0 := prefillAux_take [] fsEnc t ht
  rw [List.append_nil] at h0
  rw [h0]
  simp only [List.append_nil]
  rw [drainAux_noSentinel (fsEnc.drop t)]
  simp only [Bool.false_eq_true, if_false]
  rw [List.take_append_drop]

theorem senderRun_noSentinel_gt (fsEnc : List EncFrame) (t : ℕ)
    (ht : fsEnc.length < t) :
    senderRun t (fsEnc.map QItem.frame) = ⟨[], false⟩ := by
  unfold senderRun
  rw [prefillAux_blocked fsEnc t ht]
  simp

theorem sentinelCount_le_one (fs : List SrcFrame) :
    sentinelCount (producerTrace fs) ≤ 1 := by
  induction fs with
  | nil => simp [producerTrace, sentinelCount]
  | cons f fs ih =>
    match hv : f.enc with
    | Except.ok b => simpa [producerTrace, hv, sentinelCount] using ih
    | Except.error e => simp [producerTrace, hv, sentinelCount]

theorem frameAfterSentinel_false (fs : List SrcFrame) :
    frameAfterSentinel (producerTrace fs) = false := by
  induction fs with
  | nil => rfl
  | cons f fs ih =>
    match hv : f.enc with
    | Except.ok b => simpa [producerTrace, hv, frameAfterSentinel] using ih
    | Except.error e => simp [producerTrace, hv, frameAfterSentinel]

theorem sentinelCount_zero_of_bad (fs : List SrcFrame) (bf : SrcFrame)
    (hmem : bf ∈ fs) (hbad : encOk bf = false) :
    sentinelCount (producerTrace fs) = 0 := by
  induction fs with
  | nil => simp at hmem
  | cons f fs ih =>
    match hv : f.enc with
    | Except.ok b =>
      have hne : bf ∈ fs := by
        rcases List.mem_cons.1 hmem with h | h
        · subst h; simp [encOk, hv] at hbad
        · exact h
      simpa [producerTrace, hv, sentinelCount] using ih hne
    | Except.error e => simp [producerTrace, hv, sentinelCount]

theorem sentinelCount_frames_append_sentinel (l : List EncFrame) :
    sentinelCount (l.map QItem.frame ++ [QItem.sentinel]) = 1 := by
  unfold sentinelCount
  rw [List.filter_append]
  rw [List.filter_eq_nil_iff.2 (fun i hi => by
    rcases List.mem_map.1 hi with ⟨f, _, rfl⟩
    simp)]
  rfl

/-! ## The claims -/

/-- **C1** (settled as a bug in the code).  The claim states: for every
 successful run over a source directory containing N matching frames, the
 session sends exactly N `"stream"` messages and then exactly one `"end"`
 message duplicating the last `"stream"` message; N = 0 gives a clean exit
 with zero messages.  The code tracks `last_item` only in the drain loop and
 never checks whether the prefill loop consumed the sentinel, so with the
 default rate 30 (prefill target 15): a 15-frame directory completes with 15
 `"stream"` messages and **no** `"end"` message, and a 5-frame directory
 makes the sender block forever on `q.get()` after the prefill consumed the
 sentinel.  This theorem evaluates the embedded `client.main` at those
 failing inputs (and checks the N = 0 clean exit, which does hold). -/
theorem C1_end_message_eval :
    (mainModel "jpeg" (List.replicate 15 ⟨"1.png", "1", Except.ok "x"⟩) 30).2
        = MainResult.finished ∧
    countState "stream"
        (sentMsgs (mainModel "jpeg" (List.replicate 15 ⟨"1.png", "1", Except.ok "x"⟩) 30))
        = 15 ∧
    countState "end"
        (sentMsgs (mainModel "jpeg" (List.replicate 15 ⟨"1.png", "1", Except.ok "x"⟩) 30))
        = 0 ∧
    (mainModel "jpeg" (List.replicate 5 ⟨"1.png", "1", Except.ok "x"⟩) 30).2
        = MainResult.hung ∧
    mainModel "jpeg" [] 30 = ([], MainResult.emptyOk) := by decide

/-- **C2 (counterexample).**  The claim states that a run with corrupted
 frames drops each failing frame, continues to completion, and sends
 (source − corrupted) `"stream"` messages.  With three source frames of
 which the middle one is corrupt, at rate 1, the embedded session hangs
 (the producer dies on the corrupt frame without enqueuing the sentinel)
 and only 1 `"stream"` message is sent, not 3 − 1 = 2. -/
theorem C2_counterexample :
    (mainModel "jpeg" [⟨"a.png", "a", Except.ok "A"⟩,
        ⟨"b.png", "b", Except.error "corrupt"⟩,
        ⟨"c.png", "c", Except.ok "C"⟩] 1).2 = MainResult.hung ∧
    countState "stream" (sentMsgs (mainModel "jpeg" [⟨"a.png", "a", Except.ok "A"⟩,
        ⟨"b.png", "b", Except.error "corrupt"⟩,
        ⟨"c.png", "c", Except.ok "C"⟩] 1)) = 1 := by decide

/-- **C2 (amended).**  A per-frame encode failure is not recovered: the
 encoding stage raises at the first corrupt frame and never enqueues the
 sentinel, so the sender never completes; no `"end"` message is sent, and
 the number of `"stream"` messages sent is the number of frames before the
 first corrupt one when that reaches the prefill target, and zero otherwise
 (the prefill itself blocks). -/
theorem C2_encode_failure_amended (good : List SrcFrame) (bad : SrcFrame)
    (rest : List SrcFrame) (fps : ℚ)
    (hg : ∀ f ∈ good, encOk f = true) (hb : encOk bad = false) :
    (senderRun (prefillTarget fps) (producerTrace (good ++ bad :: rest))).completed
        = false ∧
    countState "end"
        (senderRun (prefillTarget fps) (producerTrace (good ++ bad :: rest))).msgs
        = 0 ∧
    countState "stream"
        (senderRun (prefillTarget fps) (producerTrace (good ++ bad :: rest))).msgs
      = if prefillTarget fps ≤ good.length then good.length else 0 := by
  rw [producerTrace_err good bad rest hg hb]
  rw [show good.map (fun f => QItem.frame (asEnc f))
      = (good.map asEnc).map QItem.frame by rw [List.map_map]; rfl]
  rcases le_or_lt (prefillTarget fps) good.length with ht | ht
  · have ht' : prefillTarget fps ≤ (good.map asEnc).length := by simpa using ht
    rw [senderRun_noSentinel_le (good.map asEnc) _ ht']
    refine ⟨rfl, countState_end_numberFrom _ _, ?_⟩
    rw [countState_stream_numberFrom, if_pos ht, List.length_map]
  · have ht' : (good.map asEnc).length < prefillTarget fps := by simpa using ht
    rw [senderRun_noSentinel_gt (good.map asEnc) _ ht']
    refine ⟨rfl, rfl, ?_⟩
    rw [if_neg (by omega)]
    rfl

theorem C2_encode_failure_amended_witness :
    ((∀ f ∈ [(⟨"a.png", "a", Except.ok "A"⟩ : SrcFrame)], encOk f = true) ∧
      encOk ⟨"b.png", "b", Except.error "corrupt"⟩ = false) ∧
    ((senderRun (prefillTarget 1) (producerTrace
        ([⟨"a.png", "a", Except.ok "A"⟩] ++ ⟨"b.png", "b", Except.error "corrupt"⟩
          :: [⟨"c.png", "c", Except.ok "C"⟩]))).completed = false ∧
      countState "end" (senderRun (prefillTarget 1) (producerTrace
        ([⟨"a.png", "a", Except.ok "A"⟩] ++ ⟨"b.png", "b", Except.error "corrupt"⟩
          :: [⟨"c.png", "c", Except.ok "C"⟩]))).msgs = 0 ∧
      countState "stream" (senderRun (prefillTarget 1) (producerTrace
        ([⟨"a.png", "a", Except.ok "A"⟩] ++ ⟨"b.png", "b", Except.error "corrupt"⟩
          :: [⟨"c.png", "c", Except.ok "C"⟩]))).msgs
        = if prefillTarget 1 ≤ [(⟨"a.png", "a", Except.ok "A"⟩ : SrcFrame)].length
          then [(⟨"a.png", "a", Except.ok "A"⟩ : SrcFrame)].length else 0) :=
  ⟨⟨by decide, by decide⟩,
    C2_encode_failure_amended [⟨"a.png", "a", Except.ok "A"⟩]
      ⟨"b.png", "b", Except.error "corrupt"⟩ [⟨"c.png", "c", Except.ok "C"⟩] 1
      (by decide) (by decide)⟩

/-- **C6 (counterexample).**  The claim states that in every run the stage
 enqueues an Encoded Frame for each successfully encoded source frame and
 then the sentinel exactly once.  With frames (ok, corrupt, ok) the producer
 enqueues only the first frame: the sentinel is never enqueued (count 0, not
 1) and the third frame, although it would encode successfully, never
 reaches the queue. -/
theorem C6_counterexample :
    producerTrace [⟨"a.png", "a", Except.ok "A"⟩,
        ⟨"b.png", "b", Except.error "corrupt"⟩, ⟨"c.png", "c", Except.ok "C"⟩]
      = [QItem.frame ⟨"a.png", "a", "A"⟩] ∧
    sentinelCount (producerTrace [⟨"a.png", "a", Except.ok "A"⟩,
        ⟨"b.png", "b", Except.error "corrupt"⟩, ⟨"c.png", "c", Except.ok "C"⟩]) = 0 ∧
    encOk ⟨"c.png", "c", Except.ok "C"⟩ = true ∧
    QItem.frame (asEnc ⟨"c.png", "c", Except.ok "C"⟩)
      ∉ producerTrace [⟨"a.png", "a", Except.ok "A"⟩,
          ⟨"b.png", "b", Except.error "corrupt"⟩, ⟨"c.png", "c", Except.ok "C"⟩] := by
  decide

/-- **C6 (amended).**  When every source frame encodes successfully, the
 stage enqueues one Encoded Frame per source frame in enumeration order and
 then the sentinel exactly once; in every run no Encoded Frame is ever
 enqueued after a sentinel and the sentinel is enqueued at most once; and in
 a run containing a corrupt frame the producer stops at the first failure
 and the sentinel is never enqueued. -/
theorem C6_sentinel_amended (good mixed : List SrcFrame) (bf : SrcFrame)
    (hok : ∀ f ∈ good, encOk f = true) (hmem : bf ∈ mixed)
    (hbad : encOk bf = false) :
    producerTrace good
      = good.map (fun f => QItem.frame (asEnc f)) ++ [QItem.sentinel] ∧
    sentinelCount (producerTrace good) = 1 ∧
    (∀ fs : List SrcFrame, frameAfterSentinel (producerTrace fs) = false ∧
      sentinelCount (producerTrace fs) ≤ 1) ∧
    sentinelCount (producerTrace mixed) = 0 := by
  have h1 := producerTrace_ok good hok
  refine ⟨h1, ?_, fun fs => ⟨frameAfterSentinel_false fs, sentinelCount_le_one fs⟩,
    sentinelCount_zero_of_bad mixed bf hmem hbad⟩
  rw [h1]
  rw [show good.map (fun f => QItem.frame (asEnc f))
      = (good.map asEnc).map QItem.frame by rw [List.map_map]; rfl]
  exact sentinelCount_frames_append_sentinel (good.map asEnc)

theorem C6_sentinel_amended_witness :
    ((∀ f ∈ [(⟨"a.png", "a", Except.ok "A"⟩ : SrcFrame)], encOk f = true) ∧
      (⟨"b.png", "b", Except.error "corrupt"⟩ : SrcFrame)
        ∈ [(⟨"b.png", "b", Except.error "corrupt"⟩ : SrcFrame)] ∧
      encOk ⟨"b.png", "b", Except.error "corrupt"⟩ = false) ∧
    (producerTrace [(⟨"a.png", "a", Except.ok "A"⟩ : SrcFrame)]
        = [(⟨"a.png", "a", Except.ok "A"⟩ : SrcFrame)].map
            (fun f => QItem.frame (asEnc f)) ++ [QItem.sentinel] ∧
      sentinelCount (producerTrace [(⟨"a.png", "a", Except.ok "A"⟩ : SrcFrame)]) = 1 ∧
      (∀ fs : List SrcFrame, frameAfterSentinel (producerTrace fs) = false ∧
        sentinelCount (producerTrace fs) ≤ 1) ∧
      sentinelCount (producerTrace
        [(⟨"b.png", "b", Except.error "corrupt"⟩ : SrcFrame)]) = 0) :=
  ⟨⟨by decide, by decide, by decide⟩,
    C6_sentinel_amended [⟨"a.png", "a", Except.ok "A"⟩]
      [⟨"b.png", "b", Except.error "corrupt"⟩]
      ⟨"b.png", "b", Except.error "corrupt"⟩ (by decide) (by decide) (by decide)⟩

/-- **C7.**  Before taking the pacing start reference or transmitting
 anything, the Sender first dequeues and stashes up to
 `max(1, ⌊target_rate × 0.5⌋)` encoded frames, stopping early if it
 dequeues the sentinel during the prefill; the stashed frames are then the
 first ones sent, in dequeue order.  In the embedding the prefill
 structurally precedes every send in `senderRun`, and the timed model
 `senderClock` takes its single `start` reference only after the prefill. -/
theorem C7_prefill_stash (fps : ℚ) (frames : List SrcFrame)
    (hok : ∀ f ∈ frames, encOk f = true) :
    prefillTarget fps = max 1 (⌊fps * (1/2)⌋).toNat ∧
    (prefillAux (prefillTarget fps) (producerTrace frames)).1
      = (frames.map asEnc).take (min (prefillTarget fps) frames.length) ∧
    (prefillAux (prefillTarget fps) (producerTrace frames)).2.2.1
      = decide (frames.length < prefillTarget fps) ∧
    (senderRun (prefillTarget fps) (producerTrace frames)).msgs.take
        (min (prefillTarget fps) frames.length)
      = numberFrom 0
          ((frames.map asEnc).take (min (prefillTarget fps) frames.length)) := by
  rw [producerTrace_ok frames hok]
  rw [show frames.map (fun f => QItem.frame (asEnc f))
      = (frames.map asEnc).map QItem.frame by rw [List.map_map]; rfl]
  refine ⟨prefillTarget_eq fps, ?_⟩
  rcases le_or_lt (prefillTarget fps) frames.length with ht | ht
  · have hmin : min (prefillTarget fps) frames.length = prefillTarget fps :=
      Nat.min_eq_left ht
    have ht' : prefillTarget fps ≤ (frames.map asEnc).length := by simpa using ht
    rw [show (frames.map asEnc).map QItem.frame ++ [QItem.sentinel]
        = (frames.map asEnc).map QItem.frame ++ QItem.sentinel :: [] from rfl]
    rw [prefillAux_take (QItem.sentinel :: []) (frames.map asEnc) _ ht']
    refine ⟨by rw [hmin], by simp [Nat.not_lt.2 ht], ?_⟩
    rw [show (frames.map asEnc).map QItem.frame ++ QItem.sentinel :: []
        = (frames.map asEnc).map QItem.frame ++ [QItem.sentinel] from rfl]
    rw [senderRun_ok_le (frames.map asEnc) _ ht']
    rcases hlast : ((frames.map asEnc).drop (prefillTarget fps)).getLast? with _ | lf
    · simp only [hlast]
      rw [hmin, numberFrom_take]
    · simp only [hlast]
      rw [hmin, List.take_append_of_le_length (by
        rw [numberFrom_length]; exact ht'), numberFrom_take]
  · have hmin : min (prefillTarget fps) frames.length = frames.length :=
      Nat.min_eq_right (le_of_lt ht)
    have ht' : (frames.map asEnc).length < prefillTarget fps := by simpa using ht
    rw [show (frames.map asEnc).map QItem.frame ++ [QItem.sentinel]
        = (frames.map asEnc).map QItem.frame ++ QItem.sentinel :: [] from rfl]
    rw [prefillAux_sentinel (frames.map asEnc) _ [] ht']
    refine ⟨?_, by simp [ht], ?_⟩
    · rw [hmin, ← List.length_map frames asEnc, List.take_length]
    · rw [show (frames.map asEnc).map QItem.frame ++ QItem.sentinel :: []
          = (frames.map asEnc).map QItem.frame ++ [QItem.sentinel] from rfl]
      rw [senderRun_ok_gt (frames.map asEnc) _ ht']
      rw [hmin, ← List.length_map frames asEnc, List.take_length,
        ← numberFrom_length (frames.map asEnc) 0, List.take_length]

theorem C7_prefill_stash_witness :
    (∀ f ∈ [(⟨"1.png", "1", Except.ok "A"⟩ : SrcFrame),
        ⟨"2.png", "2", Except.ok "B"⟩], encOk f = true) ∧
    (prefillTarget 1 = max 1 (⌊(1 : ℚ) * (1/2)⌋).toNat ∧
      (prefillAux (prefillTarget 1) (producerTrace
          [(⟨"1.png", "1", Except.ok "A"⟩ : SrcFrame),
            ⟨"2.png", "2", Except.ok "B"⟩])).1
        = ([(⟨"1.png", "1", Except.ok "A"⟩ : SrcFrame),
            ⟨"2.png", "2", Except.ok "B"⟩].map asEnc).take
            (min (prefillTarget 1) 2) ∧
      (prefillAux (prefillTarget 1) (producerTrace
          [(⟨"1.png", "1", Except.ok "A"⟩ : SrcFrame),
            ⟨"2.png", "2", Except.ok "B"⟩])).2.2.1
        = decide ((2 : ℕ) < prefillTarget 1) ∧
      (senderRun (prefillTarget 1) (producerTrace
          [(⟨"1.png", "1", Except.ok "A"⟩ : SrcFrame),
            ⟨"2.png", "2", Except.ok "B"⟩])).msgs.take (min (prefillTarget 1) 2)
        = numberFrom 0 (([(⟨"1.png", "1", Except.ok "A"⟩ : SrcFrame),
            ⟨"2.png", "2", Except.ok "B"⟩].map asEnc).take
            (min (prefillTarget 1) 2))) :=
  ⟨by decide,
    C7_prefill_stash 1 [⟨"1.png", "1", Except.ok "A"⟩, ⟨"2.png", "2", Except.ok "B"⟩]
      (by decide)⟩

/-- **C10.**  For every configuration whose encoding mode is neither
 `"raw"` nor `"jpeg"`, the session fails fatally at startup: the embedded
 `client.main` returns the configuration error with an empty event list, so
 no connection attempt, no image read and no send ever happens. -/
theorem C10_config_error (format : String) (paths : List SrcFrame) (fps : ℚ)
    (h1 : format ≠ "raw") (h2 : format ≠ "jpeg") :
    mainModel format paths fps = ([], MainResult.configError) := by
  unfold mainModel
  rw [if_pos]
  intro h
  rcases h with h | h
  · exact h1 h
  · exact h2 h

theorem C10_config_error_witness :
    ("png" ≠ "raw" ∧ "png" ≠ "jpeg") ∧
    mainModel "png" [⟨"1.png", "1", Except.ok "A"⟩] 30
      = ([], MainResult.configError) :=
  ⟨⟨by decide, by decide⟩,
    C10_config_error "png" [⟨"1.png", "1", Except.ok "A"⟩] 30 (by decide) (by decide)⟩

/-- **C3.**  After the end message the session waits for the listener
 bounded by the fixed 20-unit timeout; whatever the listener does, the
 post-end phase lasts at most 20 units plus the (nonnegative) cancellation
 and close overheads, and when the remote endpoint never responds and never
 closes (listener finish time `none`) the phase times out, cancels the
 listener, awaits the cancellation and only then closes the connection —
 the session never hangs indefinitely. -/
theorem C3_handshake_bounded (cancelCost closeCost : ℚ)
    (hc : 0 ≤ cancelCost) (_hk : 0 ≤ closeCost) :
    (∀ lf : Option ℚ,
      (postEndPhase lf cancelCost closeCost).1 ≤ 20 + cancelCost + closeCost) ∧
    (postEndPhase none cancelCost closeCost).2
      = [HsEv.timedOut, HsEv.cancelListener, HsEv.cancelObserved, HsEv.connClosed] ∧
    (postEndPhase none cancelCost closeCost).1
      = 20 + cancelCost + closeCost := by
  refine ⟨?_, rfl, rfl⟩
  intro lf
  match lf with
  | none => exact le_refl _
  | some t =>
    simp only [postEndPhase, waitForListener]
    rcases le_or_lt t 20 with h | h
    · rw [if_pos h]
      simp only
      linarith
    · rw [if_neg (not_le.2 h)]

theorem C3_handshake_bounded_witness :
    ((0 : ℚ) ≤ 0 ∧ (0 : ℚ) ≤ 0) ∧
    ((∀ lf : Option ℚ, (postEndPhase lf 0 0).1 ≤ 20 + 0 + 0) ∧
      (postEndPhase none 0 0).2
        = [HsEv.timedOut, HsEv.cancelListener, HsEv.cancelObserved,
            HsEv.connClosed] ∧
      (postEndPhase none 0 0).1 = 20 + 0 + 0) :=
  ⟨⟨by decide, by decide⟩, C3_handshake_bounded 0 0 (by decide) (by decide)⟩

theorem senderClock_ge (start fps : ℚ) (d : ℕ → ℚ) (k : ℕ) (hk : 1 ≤ k) :
    start + (k : ℚ) / fps ≤ senderClock start fps d k := by
  cases k with
  | zero => omega
  | succ m =>
    show _ ≤ paceStep start fps (m + 1) _
    rw [paceStep_eq_max]
    exact le_max_right _ _

theorem senderClock_zero_delays (start fps : ℚ) (d : ℕ → ℚ) (hfps : 0 < fps) :
    ∀ m, 1 ≤ m → ∀ j, (∀ i, j < i → i ≤ j + m → d i = 0) →
      senderClock start fps d (j + m)
        = max (senderClock start fps d j) (start + ((j + m : ℕ) : ℚ) / fps) := by
  intro m
  induction m with
  | zero => omega
  | succ m ih =>
    intro _ j h0
    show senderClock start fps d ((j + m) + 1) = _
    rw [senderClock, paceStep_eq_max, h0 ((j + m) + 1) (by omega) (by omega),
      add_zero]
    simp only [schedTime]
    rcases Nat.eq_zero_or_pos m with hm0 | hm1
    · subst hm0
      rfl
    · rw [ih hm1 j (fun i hi1 hi2 => h0 i hi1 (by omega))]
      have hmono : start + ((j + m : ℕ) : ℚ) / fps
          ≤ start + (((j + m) + 1 : ℕ) : ℚ) / fps := by
        have hcast : ((j + m : ℕ) : ℚ) ≤ (((j + m) + 1 : ℕ) : ℚ) := by
          push_cast
          linarith
        have := (div_le_div_iff_of_pos_right hfps).2 hcast
        linarith
      rw [max_assoc, max_eq_right hmono]
      rfl

/-- **C5.**  The Sender's scheduled time for completing the k-th frame is
 `start + k / target_rate` against the single monotonic start reference, it
 sleeps exactly until that time and not at all when already past it
 (the clock after the pacing step is the maximum of the arrival time and the
 scheduled time), and delays never accumulate: whenever processing after
 some frame j is instantaneous and the clock at j is at or before the k-th
 scheduled time, the sender is exactly back on schedule at frame k. -/
theorem C5_drift_corrected_pacing (start fps : ℚ) (d : ℕ → ℚ) (k : ℕ)
    (hk : 1 ≤ k) (hfps : 0 < fps) :
    schedTime start fps k = start + (k : ℚ) / fps ∧
    senderClock start fps d k
      = max (senderClock start fps d (k - 1) + d k) (start + (k : ℚ) / fps) ∧
    (∀ j, j ≤ k → (∀ i, j < i → i ≤ k → d i = 0) →
      senderClock start fps d j ≤ start + (k : ℚ) / fps →
      senderClock start fps d k = start + (k : ℚ) / fps) := by
  obtain ⟨m, rfl⟩ : ∃ m, k = m + 1 := ⟨k - 1, by omega⟩
  refine ⟨rfl, ?_, ?_⟩
  · show paceStep start fps (m + 1) (senderClock start fps d m + d (m + 1)) = _
    rw [paceStep_eq_max, Nat.add_sub_cancel]
    rfl
  · intro j hj h0 hle
    rcases Nat.lt_or_ge j (m + 1) with hlt | hge
    · have hkj : j + ((m + 1) - j) = m + 1 := by omega
      have hz := senderClock_zero_delays start fps d hfps ((m + 1) - j)
        (by omega) j (fun i hi1 hi2 => h0 i hi1 (by omega))
      rw [hkj] at hz
      rw [hz]
      exact max_eq_right hle
    · have hj' : j = m + 1 := by omega
      subst hj'
      exact le_antisymm hle (senderClock_ge start fps d (m + 1) (by omega))

theorem C5_drift_corrected_pacing_witness :
    ((1 : ℕ) ≤ 1 ∧ (0 : ℚ) < 1) ∧
    (schedTime 0 1 1 = 0 + ((1 : ℕ) : ℚ) / 1 ∧
      senderClock 0 1 (fun _ => 0) 1
        = max (senderClock 0 1 (fun _ => 0) (1 - 1) + (fun _ => (0 : ℚ)) 1)
            (0 + ((1 : ℕ) : ℚ) / 1) ∧
      (∀ j, j ≤ 1 → (∀ i, j < i → i ≤ 1 → (fun _ => (0 : ℚ)) i = 0) →
        senderClock 0 1 (fun _ => 0) j ≤ 0 + ((1 : ℕ) : ℚ) / 1 →
        senderClock 0 1 (fun _ => 0) 1 = 0 + ((1 : ℕ) : ℚ) / 1)) :=
  ⟨⟨by decide, by decide⟩,
    C5_drift_corrected_pacing 0 1 (fun _ => 0) 1 (by decide) (by decide)⟩

/-- **C9.**  A failed single-frame camera read is skipped without aborting
 the capture loop and without writing a file, while the loop's scheduled
 index still advances by one: the failing iteration logs no write, the rest
 of the reads are processed unchanged, and the following iteration (when
 there is one) is scheduled at `start + (i + 1) / target_rate`. -/
theorem C9_failed_read_skipped (start fps : ℚ) (i : ℕ) (rest : List CamRead) :
    recordIters start fps i (CamRead.fail :: rest)
      = ⟨i, start + (i : ℚ) / fps, none⟩ :: recordIters start fps (i + 1) rest ∧
    recordWrites (recordIters start fps i (CamRead.fail :: rest))
      = recordWrites (recordIters start fps (i + 1) rest) ∧
    (recordIters start fps i (CamRead.fail :: rest)).length
      = 1 + (recordIters start fps (i + 1) rest).length ∧
    (∀ r' rest', rest = r' :: rest' →
      ∃ l : IterLog, (recordIters start fps (i + 1) rest).head? = some l ∧
        l.idx = i + 1 ∧ l.sched = start + ((i + 1 : ℕ) : ℚ) / fps) := by
  refine ⟨rfl, rfl, by simp [recordIters]; omega, ?_⟩
  rintro r' rest' rfl
  cases r' with
  | fail => exact ⟨_, rfl, rfl, rfl⟩
  | frame ts q =>
    cases q with
    | false => exact ⟨⟨i + 1, start + ((i + 1 : ℕ) : ℚ) / fps, some ts⟩, rfl, rfl, rfl⟩
    | true => exact ⟨⟨i + 1, start + ((i + 1 : ℕ) : ℚ) / fps, some ts⟩, rfl, rfl, rfl⟩

theorem C9_failed_read_skipped_witness :
    recordIters 0 1 0 [CamRead.fail, CamRead.frame 7 false]
      = ⟨0, 0 + ((0 : ℕ) : ℚ) / 1, none⟩
          :: recordIters 0 1 (0 + 1) [CamRead.frame 7 false] ∧
    recordWrites (recordIters 0 1 0 [CamRead.fail, CamRead.frame 7 false])
      = recordWrites (recordIters 0 1 (0 + 1) [CamRead.frame 7 false]) ∧
    (recordIters 0 1 0 [CamRead.fail, CamRead.frame 7 false]).length
      = 1 + (recordIters 0 1 (0 + 1) [CamRead.frame 7 false]).length ∧
    (∀ r' rest', [CamRead.frame 7 false] = r' :: rest' →
      ∃ l : IterLog, (recordIters 0 1 (0 + 1) [CamRead.frame 7 false]).head? = some l ∧
        l.idx = 0 + 1 ∧ l.sched = 0 + ((0 + 1 : ℕ) : ℚ) / 1) :=
  C9_failed_read_skipped 0 1 0 [CamRead.frame 7 false]

theorem list_timestamped_pngs_perm (l : List String) :
    (list_timestamped_pngs l).Perm (l.filter (fun s => tsPngMatch s.data)) :=
  List.perm_insertionSort _ _

theorem list_timestamped_pngs_sorted (l : List String) :
    (list_timestamped_pngs l).Sorted (fun a b => fileKeyQ a ≤ fileKeyQ b) := by
  haveI : IsTotal String (fun a b => (fileKey a).leb (fileKey b) = true) :=
    ⟨fun a b => by
      rcases le_total (fileKey a).toQ (fileKey b).toQ with h | h
      · exact Or.inl ((DecKey.leb_iff _ _).2 h)
      · exact Or.inr ((DecKey.leb_iff _ _).2 h)⟩
  haveI : IsTrans String (fun a b => (fileKey a).leb (fileKey b) = true) :=
    ⟨fun _ _ _ hab hbc => (DecKey.leb_iff _ _).2
      (le_trans ((DecKey.leb_iff _ _).1 hab) ((DecKey.leb_iff _ _).1 hbc))⟩
  have hs := List.sorted_insertionSort
    (fun a b : String => (fileKey a).leb (fileKey b) = true)
    (l.filter (fun s => tsPngMatch s.data))
  exact hs.imp (fun h => (DecKey.leb_iff _ _).1 h)

theorem sorted_lt_of_sorted_le_nodup {α β : Type} [LinearOrder β] (key : α → β)
    (l : List α)
    (hs : l.Sorted (fun a b => key a ≤ key b)) (hnd : (l.map key).Nodup) :
    l.Sorted (fun a b => key a < key b) := by
  have hne : l.Pairwise (fun a b => key a ≠ key b) := List.pairwise_map.1 hnd
  exact (hs.and hne).imp (fun h => lt_of_le_of_ne h.1 h.2)

theorem sorted_eq_of_perm_of_key_nodup {α β : Type} [LinearOrder β] (key : α → β)
    (l₁ l₂ : List α)
    (hp : l₁.Perm l₂)
    (hs₁ : l₁.Sorted (fun a b => key a ≤ key b))
    (hs₂ : l₂.Sorted (fun a b => key a ≤ key b))
    (hnd : (l₁.map key).Nodup) : l₁ = l₂ := by
  haveI : IsAntisymm α (fun a b => key a < key b) :=
    ⟨fun a b h1 h2 => absurd h2 (lt_asymm h1)⟩
  have hnd₂ : (l₂.map key).Nodup := ((hp.map key).nodup_iff).1 hnd
  exact List.eq_of_perm_of_sorted hp
    (sorted_lt_of_sorted_le_nodup key l₁ hs₁ hnd)
    (sorted_lt_of_sorted_le_nodup key l₂ hs₂ hnd₂)

theorem dyadic_le_iff (m1 m2 : ℕ) (e1 e2 : ℤ) :
    (m1 * 2 ^ (e1 - e2).toNat ≤ m2 * 2 ^ (e2 - e1).toNat) ↔
      ((m1 : ℚ) * (2 : ℚ) ^ e1 ≤ (m2 : ℚ) * (2 : ℚ) ^ e2) := by
  have h2 : (2 : ℚ) ≠ 0 := by norm_num
  have hpos : (0 : ℚ) < (2 : ℚ) ^ (((e1 - e2).toNat : ℤ) - e1) := by positivity
  have hiff : ((m1 : ℚ) * (2 : ℚ) ^ e1 ≤ (m2 : ℚ) * (2 : ℚ) ^ e2)
      ↔ ((m1 : ℚ) * (2 : ℚ) ^ e1 * (2 : ℚ) ^ (((e1 - e2).toNat : ℤ) - e1)
        ≤ (m2 : ℚ) * (2 : ℚ) ^ e2 * (2 : ℚ) ^ (((e1 - e2).toNat : ℤ) - e1)) :=
    (mul_le_mul_right hpos).symm
  rw [hiff, mul_assoc, mul_assoc, ← zpow_add₀ h2, ← zpow_add₀ h2]
  rw [show e1 + (((e1 - e2).toNat : ℤ) - e1) = ((e1 - e2).toNat : ℤ) by ring]
  rw [show e2 + (((e1 - e2).toNat : ℤ) - e1) = ((e2 - e1).toNat : ℤ) by omega]
  rw [zpow_natCast, zpow_natCast]
  constructor
  · intro h
    exact_mod_cast h
  · intro h
    exact_mod_cast h

theorem dyadic_eq_iff (m1 m2 : ℕ) (e1 e2 : ℤ) :
    (m1 * 2 ^ (e1 - e2).toNat = m2 * 2 ^ (e2 - e1).toNat) ↔
      ((m1 : ℚ) * (2 : ℚ) ^ e1 = (m2 : ℚ) * (2 : ℚ) ^ e2) := by
  constructor
  · intro h
    exact le_antisymm ((dyadic_le_iff m1 m2 e1 e2).1 h.le)
      ((dyadic_le_iff m2 m1 e2 e1).1 h.ge)
  · intro h
    exact le_antisymm ((dyadic_le_iff m1 m2 e1 e2).2 h.le)
      ((dyadic_le_iff m2 m1 e2 e1).2 h.ge)

theorem F64.leb_iff_toQT (a b : F64) : a.leb b = true ↔ a.toQT ≤ b.toQT := by
  match a, b with
  | F64.inf, F64.inf => simp [F64.leb, F64.toQT]
  | F64.fin m e, F64.inf => simp [F64.leb, F64.toQT]
  | F64.inf, F64.fin m e =>
    show false = true
      ↔ (⊤ : WithTop ℚ) ≤ (((m : ℚ) * (2 : ℚ) ^ e : ℚ) : WithTop ℚ)
    simp only [Bool.false_eq_true, false_iff, top_le_iff, WithTop.coe_ne_top]
  | F64.fin m1 e1, F64.fin m2 e2 =>
    show _ ↔ (((m1 : ℚ) * (2 : ℚ) ^ e1 : ℚ) : WithTop ℚ)
      ≤ (((m2 : ℚ) * (2 : ℚ) ^ e2 : ℚ) : WithTop ℚ)
    rw [WithTop.coe_le_coe]
    simp only [F64.leb, decide_eq_true_eq]
    exact dyadic_le_iff m1 m2 e1 e2

theorem F64.eqb_iff_toQT (a b : F64) : a.eqb b = true ↔ a.toQT = b.toQT := by
  match a, b with
  | F64.inf, F64.inf => simp [F64.eqb, F64.toQT]
  | F64.fin m e, F64.inf =>
    show false = true
      ↔ (((m : ℚ) * (2 : ℚ) ^ e : ℚ) : WithTop ℚ) = (⊤ : WithTop ℚ)
    simp only [Bool.false_eq_true, false_iff]
    exact WithTop.mul_ne_top WithTop.coe_ne_top WithTop.coe_ne_top
  | F64.inf, F64.fin m e =>
    show false = true
      ↔ (⊤ : WithTop ℚ) = (((m : ℚ) * (2 : ℚ) ^ e : ℚ) : WithTop ℚ)
    simp only [Bool.false_eq_true, false_iff]
    exact fun h =>
      WithTop.mul_ne_top WithTop.coe_ne_top WithTop.coe_ne_top h.symm
  | F64.fin m1 e1, F64.fin m2 e2 =>
    show _ ↔ (((m1 : ℚ) * (2 : ℚ) ^ e1 : ℚ) : WithTop ℚ)
      = (((m2 : ℚ) * (2 : ℚ) ^ e2 : ℚ) : WithTop ℚ)
    rw [WithTop.coe_eq_coe]
    simp only [F64.eqb, decide_eq_true_eq]
    exact dyadic_eq_iff m1 m2 e1 e2

theorem list_timestamped_pngs_f64_perm (l : List String) :
    (list_timestamped_pngs_f64 l).Perm (l.filter (fun s => tsPngMatch s.data)) :=
  List.perm_insertionSort _ _

theorem list_timestamped_pngs_f64_sorted (l : List String) :
    (list_timestamped_pngs_f64 l).Sorted
      (fun a b => (fileKeyF a).toQT ≤ (fileKeyF b).toQT) := by
  haveI : IsTotal String (fun a b => (fileKeyF a).leb (fileKeyF b) = true) :=
    ⟨fun a b => by
      rcases le_total (fileKeyF a).toQT (fileKeyF b).toQT with h | h
      · exact Or.inl ((F64.leb_iff_toQT _ _).2 h)
      · exact Or.inr ((F64.leb_iff_toQT _ _).2 h)⟩
  haveI : IsTrans String (fun a b => (fileKeyF a).leb (fileKeyF b) = true) :=
    ⟨fun _ _ _ hab hbc => (F64.leb_iff_toQT _ _).2
      (le_trans ((F64.leb_iff_toQT _ _).1 hab) ((F64.leb_iff_toQT _ _).1 hbc))⟩
  have hs := List.sorted_insertionSort
    (fun a b : String => (fileKeyF a).leb (fileKeyF b) = true)
    (l.filter (fun s => tsPngMatch s.data))
  exact hs.imp (fun h => (F64.leb_iff_toQT _ _).1 h)

/-- **C4 (counterexample).**  The claim states that the enumerator's output
 is ordered by the numeric value of the timestamp stem, independent of the
 order the filesystem returns the files in.  The program's sort key is
 `float(p.stem)`, an IEEE-754 double, so distinct stems can share one key:
 `10000000000000001` and `10000000000000000` round to the same double
 (and `1.5` / `1.50` denote the same value outright).  The stable sort
 keeps such ties in listing order, so the two listing orders of the same
 file set produce different outputs — and the output for the first listing
 is not in numeric-stem order either. -/
theorem C4_counterexample :
    (["10000000000000001.png", "10000000000000000.png"] : List String).Perm
      ["10000000000000000.png", "10000000000000001.png"] ∧
    fileKeyF "10000000000000001.png" = fileKeyF "10000000000000000.png" ∧
    fileKeyF "1.5.png" = fileKeyF "1.50.png" ∧
    list_timestamped_pngs_f64 ["10000000000000001.png", "10000000000000000.png"]
      = ["10000000000000001.png", "10000000000000000.png"] ∧
    list_timestamped_pngs_f64 ["10000000000000000.png", "10000000000000001.png"]
      = ["10000000000000000.png", "10000000000000001.png"] ∧
    list_timestamped_pngs_f64 ["10000000000000001.png", "10000000000000000.png"]
      ≠ list_timestamped_pngs_f64 ["10000000000000000.png", "10000000000000001.png"]
    := by decide

/-- **C4 (amended).**  For every directory listing the enumerator returns
 exactly the files whose names match the timestamp pattern, sorted (stably)
 by the IEEE-754 double value of the timestamp stem — the key
 `float(p.stem)` actually computed by the program; and the output is
 independent of the order the filesystem returns the names in whenever the
 matching names have pairwise distinct double keys.  Ties — equal numeric
 values such as `1.5.png` versus `1.50.png`, and distinct decimals that
 round to the same double such as `10000000000000001.png` versus
 `10000000000000000.png` — are kept in filesystem order. -/
theorem C4_enumerator_amended (l₁ l₂ : List String) (hp : l₁.Perm l₂)
    (hnd : (l₁.filter (fun s => tsPngMatch s.data)).Pairwise
      (fun a b => (fileKeyF a).eqb (fileKeyF b) = false)) :
    (∀ l : List String,
      (list_timestamped_pngs_f64 l).Perm
        (l.filter (fun s => tsPngMatch s.data))) ∧
    (∀ l : List String,
      (list_timestamped_pngs_f64 l).Sorted
        (fun a b => (fileKeyF a).toQT ≤ (fileKeyF b).toQT)) ∧
    list_timestamped_pngs_f64 l₁ = list_timestamped_pngs_f64 l₂ := by
  refine ⟨list_timestamped_pngs_f64_perm, list_timestamped_pngs_f64_sorted, ?_⟩
  have hndq : ((l₁.filter (fun s => tsPngMatch s.data)).map
      (fun s => (fileKeyF s).toQT)).Nodup := by
    unfold List.Nodup
    rw [List.pairwise_map]
    refine hnd.imp ?_
    intro a b h he
    have heb : (fileKeyF a).eqb (fileKeyF b) = true := (F64.eqb_iff_toQT _ _).2 he
    rw [h] at heb
    exact Bool.false_ne_true heb
  have h1 := list_timestamped_pngs_f64_perm l₁
  have h2 := list_timestamped_pngs_f64_perm l₂
  have hfp : (l₁.filter (fun s => tsPngMatch s.data)).Perm
      (l₂.filter (fun s => tsPngMatch s.data)) := hp.filter _
  have hperm : (list_timestamped_pngs_f64 l₁).Perm (list_timestamped_pngs_f64 l₂) :=
    (h1.trans hfp).trans h2.symm
  have hnd₁ : ((list_timestamped_pngs_f64 l₁).map
      (fun s => (fileKeyF s).toQT)).Nodup :=
    ((h1.map (fun s => (fileKeyF s).toQT)).nodup_iff).2 hndq
  exact sorted_eq_of_perm_of_key_nodup (fun s => (fileKeyF s).toQT) _ _ hperm
    (list_timestamped_pngs_f64_sorted l₁) (list_timestamped_pngs_f64_sorted l₂)
    hnd₁

theorem C4_enumerator_amended_witness :
    ((["2.png", "10.png", "1.png"] : List String).Perm
        ["1.png", "10.png", "2.png"] ∧
      (["2.png", "10.png", "1.png"].filter
          (fun s => tsPngMatch s.data)).Pairwise
        (fun a b => (fileKeyF a).eqb (fileKeyF b) = false)) ∧
    ((∀ l : List String,
        (list_timestamped_pngs_f64 l).Perm
          (l.filter (fun s => tsPngMatch s.data))) ∧
      (∀ l : List String,
        (list_timestamped_pngs_f64 l).Sorted
          (fun a b => (fileKeyF a).toQT ≤ (fileKeyF b).toQT)) ∧
      list_timestamped_pngs_f64 ["2.png", "10.png", "1.png"]
        = list_timestamped_pngs_f64 ["1.png", "10.png", "2.png"]) :=
  ⟨⟨by decide, by decide⟩,
    C4_enumerator_amended ["2.png", "10.png", "1.png"] ["1.png", "10.png", "2.png"]
      (by decide) (by decide)⟩

/-! ## Lemmas about recorded filenames -/

theorem digitChar_isDig {d : ℕ} (hd : d < 10) : isDig (digitChar d) = true := by
  interval_cases d <;> decide

theorem digitChar_digVal {d : ℕ} (hd : d < 10) : digVal (digitChar d) = d := by
  interval_cases d <;> decide

theorem digitChar_ne_dot {d : ℕ} (hd : d < 10) : digitChar d ≠ '.' := by
  interval_cases d <;> decide

theorem splitOnDot_no_dot (cs : List Char) (h : ∀ c ∈ cs, c ≠ '.') :
    splitOnDot cs = [cs] := by
  induction cs with
  | nil => rfl
  | cons c cs ih =>
    have hc : c ≠ '.' := h c (by simp)
    simp only [splitOnDot, if_neg hc]
    rw [ih (fun x hx => h x (by simp [hx]))]

theorem splitOnDot_one_dot (a b : List Char) (ha : ∀ c ∈ a, c ≠ '.')
    (hb : ∀ c ∈ b, c ≠ '.') : splitOnDot (a ++ '.' :: b) = [a, b] := by
  induction a with
  | nil => simp [splitOnDot, splitOnDot_no_dot b hb]
  | cons c cs ih =>
    have hc : c ≠ '.' := ha c (by simp)
    simp only [List.cons_append, splitOnDot, if_neg hc, List.append_eq]
    rw [ih (fun x hx => ha x (by simp [hx]))]

theorem removeFirstDot_one_dot (a b : List Char) (ha : ∀ c ∈ a, c ≠ '.') :
    removeFirstDot (a ++ '.' :: b) = a ++ b := by
  induction a with
  | nil => simp [removeFirstDot]
  | cons c cs ih =>
    have hc : c ≠ '.' := ha c (by simp)
    simp only [List.cons_append, removeFirstDot, if_neg hc, List.append_eq]
    rw [ih (fun x hx => ha x (by simp [hx]))]

theorem natOfDigits_map_aux :
    ∀ (ds : List ℕ) (acc : ℕ), (∀ d ∈ ds, d < 10) →
      (ds.map digitChar).foldl (fun a c => a * 10 + digVal c) acc
        = ds.foldl (fun a d => a * 10 + d) acc := by
  intro ds
  induction ds with
  | nil => intro acc _; rfl
  | cons d ds ih =>
    intro acc h
    simp only [List.map_cons, List.foldl_cons]
    rw [digitChar_digVal (h d (by simp))]
    exact ih _ (fun x hx => h x (by simp [hx]))

theorem natOfDigits_map (ds : List ℕ) (h : ∀ d ∈ ds, d < 10) :
    natOfDigits (ds.map digitChar) = digitsVal ds :=
  natOfDigits_map_aux ds 0 h

theorem stemChars_append_png (a : List Char) : stemChars (a ++ pngSuffix) = a := by
  unfold stemChars
  rw [List.length_append]
  rw [show a.length + pngSuffix.length - 4 = a.length from by
    simp [pngSuffix]]
  exact List.take_left a pngSuffix

theorem wfDigits_mem {ds : List ℕ} (h : wfDigits ds = true) : ∀ d ∈ ds, d < 10 := by
  intro d hd
  have := List.all_eq_true.1 h d hd
  simpa using this

theorem render_data (t : RecName) :
    (t.render).data = t.ip.map digitChar ++ '.' :: t.frac.map digitChar
      ++ pngSuffix := rfl

theorem render_stem_no_dot_left (t : RecName) (h1 : wfDigits t.ip = true) :
    ∀ c ∈ t.ip.map digitChar, c ≠ '.' := by
  intro c hc
  rcases List.mem_map.1 hc with ⟨d, hd, rfl⟩
  exact digitChar_ne_dot (wfDigits_mem h1 d hd)

theorem render_stem_no_dot_right (t : RecName) (h2 : wfDigits t.frac = true) :
    ∀ c ∈ t.frac.map digitChar, c ≠ '.' := by
  intro c hc
  rcases List.mem_map.1 hc with ⟨d, hd, rfl⟩
  exact digitChar_ne_dot (wfDigits_mem h2 d hd)

theorem pyIsdigit_map (ds : List ℕ) (h : wfDigits ds = true) (hne : ds ≠ []) :
    pyIsdigit (ds.map digitChar) = true := by
  unfold pyIsdigit
  rw [Bool.and_eq_true]
  constructor
  · simp [hne]
  · rw [List.all_eq_true]
    intro c hc
    rcases List.mem_map.1 hc with ⟨d, hd, rfl⟩
    exact digitChar_isDig (wfDigits_mem h d hd)

theorem tsPngMatch_render (t : RecName) (h1 : wfDigits t.ip = true)
    (h2 : wfDigits t.frac = true) (h3 : t.ip ≠ []) (h4 : t.frac ≠ []) :
    tsPngMatch (t.render).data = true := by
  rw [render_data]
  rw [show t.ip.map digitChar ++ '.' :: t.frac.map digitChar ++ pngSuffix
      = (t.ip.map digitChar ++ '.' :: t.frac.map digitChar) ++ pngSuffix from by
    simp]
  unfold tsPngMatch
  rw [stemChars_append_png]
  rw [Bool.and_eq_true, Bool.and_eq_true]
  refine ⟨⟨?_, ?_⟩, ?_⟩
  · rw [decide_eq_true_eq, List.length_append]
    simp [pngSuffix]
  · rw [decide_eq_true_eq, List.length_append]
    rw [show (t.ip.map digitChar ++ '.' :: t.frac.map digitChar).length
        + pngSuffix.length - 4
        = (t.ip.map digitChar ++ '.' :: t.frac.map digitChar).length from by
      simp [pngSuffix]]
    exact List.drop_left _ _
  · unfold stemPat
    rw [splitOnDot_one_dot _ _ (render_stem_no_dot_left t h1)
      (render_stem_no_dot_right t h2)]
    rw [Bool.and_eq_true]
    exact ⟨pyIsdigit_map t.ip h1 h3, pyIsdigit_map t.frac h2 h4⟩

theorem pyFloatKey_one_dot (a b : List Char) (ha : ∀ c ∈ a, c ≠ '.')
    (hb : ∀ c ∈ b, c ≠ '.') :
    pyFloatKey (a ++ '.' :: b)
      = ⟨natOfDigits a * 10 ^ b.length + natOfDigits b, b.length⟩ := by
  unfold pyFloatKey
  rw [splitOnDot_one_dot a b ha hb]

theorem fileKey_render (t : RecName) (h1 : wfDigits t.ip = true)
    (h2 : wfDigits t.frac = true) (h3 : t.ip ≠ []) (_h4 : t.frac ≠ []) :
    fileKey t.render = t.key := by
  unfold fileKey
  rw [render_data]
  rw [show t.ip.map digitChar ++ '.' :: t.frac.map digitChar ++ pngSuffix
      = (t.ip.map digitChar ++ '.' :: t.frac.map digitChar) ++ pngSuffix from by
    simp]
  rw [stemChars_append_png]
  unfold sortKey
  rw [removeFirstDot_one_dot _ _ (render_stem_no_dot_left t h1)]
  rw [if_pos]
  · rw [pyFloatKey_one_dot _ _ (render_stem_no_dot_left t h1)
      (render_stem_no_dot_right t h2)]
    unfold RecName.key
    rw [natOfDigits_map t.ip (wfDigits_mem h1), natOfDigits_map t.frac (wfDigits_mem h2),
      List.length_map]
  · rw [show t.ip.map digitChar ++ t.frac.map digitChar
        = (t.ip ++ t.frac).map digitChar from by rw [List.map_append]]
    refine pyIsdigit_map _ ?_ ?_
    · unfold wfDigits
      rw [List.all_eq_true]
      intro d hd
      rcases List.mem_append.1 hd with h | h
      · simpa using wfDigits_mem h1 d h
      · simpa using wfDigits_mem h2 d h
    · simp [h3]

theorem key_toQ (t : RecName) : t.key.toQ = t.value := by
  unfold RecName.key RecName.value DecKey.toQ
  have h10 : ((10 : ℚ) ^ t.frac.length) ≠ 0 := by positivity
  push_cast
  field_simp

end PyDemo

